import Mathlib

/-!
# RMTS bounds store (`src/rmts/rmts.cpp`)

A shallow embedding of the constructor, the destructor and `RMTS::setup`
over an explicit byte-level storage model:

* storage is a list of blocks, a pointer is null or a block index with a
  byte offset, a `double` is its eight-byte object representation;
* `new double[n]`, `memcpy` and `delete[]` are functions on the storage that
  either return the new storage or stop with a `Fault` (an exception thrown
  by the language runtime, or undefined behaviour made explicit);
* a log records every allocation and release in program order;
* free store is not bounded: `new double[n]` with an acceptable length
  always finds room.
-/

set_option linter.dupNamespace false
set_option autoImplicit false

namespace Smt

/-! ## Machine constants -/

/-- The value of `sizeof(double)`. -/
def sizeofDouble : Nat := 8

/-- Number of values of the 64-bit unsigned `size_t`. -/
def sizeModulus : Nat := 2 ^ 64

/-- A C++ `int`: 32 bits, two's complement. -/
structure CInt where
  val : Int
  lo : -2 ^ 31 ≤ val
  hi : val < 2 ^ 31
deriving DecidableEq

/-- Integral conversion of a signed value to `size_t` (reduction modulo `2^64`). -/
def toSizeT (n : Int) : Nat := (n % (sizeModulus : Int)).toNat

/-- Multiplication in `size_t` (wraps modulo `2^64`). -/
def sizeMul (a b : Nat) : Nat := (a * b) % sizeModulus

/-- The third argument of both `memcpy` calls of `RMTS::setup`:
`nx * sizeof(*lower)`, with `nx` converted to `size_t` first. -/
def memcpyCount (nx : Int) : Nat := sizeMul (toSizeT nx) sizeofDouble

/-! ## Storage -/

/-- One byte of object representation. -/
abbrev Byte := Fin 256

/-- One byte of storage; `none` is an indeterminate (never written) byte. -/
abbrev Cell := Option Byte

/-- The object representation of one `double`: `sizeofDouble` cells. -/
abbrev Dbl := List Cell

/-- A `double *`: null, or a byte offset into a storage block. -/
inductive Ptr where
  | null : Ptr
  | addr (block : Nat) (off : Nat) : Ptr
deriving DecidableEq

/-- A storage block: its bytes, whether it is still live, and whether it
was obtained from `new[]` (only such a block may be given to `delete[]`). -/
structure Block where
  cells : List Cell
  live : Bool
  arrayNew : Bool
deriving DecidableEq

/-- Allocation log entries. -/
inductive Event where
  | alloc (block : Nat) (bytes : Nat) : Event
  | release (block : Nat) : Event
deriving DecidableEq

/-- The storage: all blocks ever created (a block index is never reused)
and the log of allocations and releases, oldest first. -/
structure Heap where
  blocks : List Block
  log : List Event
deriving DecidableEq

/-- Ways in which an operation does not return normally. -/
inductive Fault where
  | badArrayNewLength : Fault
  | invalidAccess : Fault
  | overlap : Fault
  | invalidDelete : Fault
deriving DecidableEq

/-- The expression `new double[n]`: a negative length, or one whose byte size
does not fit `size_t`, throws `std::bad_array_new_length`; otherwise a fresh
live block of `n * sizeof(double)` indeterminate bytes is appended and a
pointer to its start is returned. -/
def newArrayDouble (h : Heap) (n : Int) : Except Fault (Heap × Ptr) :=
  if n < 0 then .error .badArrayNewLength
  else if sizeModulus ≤ n.toNat * sizeofDouble then .error .badArrayNewLength
  else
    .ok ({ blocks := h.blocks ++
             [{ cells := List.replicate (n.toNat * sizeofDouble) none,
                live := true, arrayNew := true }],
           log := h.log ++ [.alloc h.blocks.length (n.toNat * sizeofDouble)] },
         .addr h.blocks.length 0)

/-- Read `n` bytes at `p`; reading through null, from a dead block or past
the end of a block is undefined behaviour. -/
def loadBytes (h : Heap) (p : Ptr) (n : Nat) : Except Fault (List Cell) :=
  match p with
  | .null => .error .invalidAccess
  | .addr b off =>
    match h.blocks[b]? with
    | none => .error .invalidAccess
    | some blk =>
      if blk.live = true ∧ off + n ≤ blk.cells.length then
        .ok ((blk.cells.drop off).take n)
      else .error .invalidAccess

/-- Write `data` at `p`; same validity conditions as `loadBytes`. -/
def storeBytes (h : Heap) (p : Ptr) (data : List Cell) : Except Fault Heap :=
  match p with
  | .null => .error .invalidAccess
  | .addr b off =>
    match h.blocks[b]? with
    | none => .error .invalidAccess
    | some blk =>
      if blk.live = true ∧ off + data.length ≤ blk.cells.length then
        let cells' := blk.cells.take off ++ data ++ blk.cells.drop (off + data.length)
        .ok { h with blocks := h.blocks.set b ({ blk with cells := cells' }) }
      else .error .invalidAccess

/-- Whether the `n`-byte regions at `dst` and `src` share a byte. -/
def regionsOverlap (dst src : Ptr) (n : Nat) : Bool :=
  match dst, src with
  | .addr b₁ o₁, .addr b₂ o₂ => decide (b₁ = b₂ ∧ o₁ < o₂ + n ∧ o₂ < o₁ + n)
  | _, _ => false

/-- The call `memcpy(dst, src, n)`. A zero count copies nothing and touches
no byte, so the call returns whatever the two pointers are (null included),
as the library implementations do. Otherwise the source must be readable,
the two regions disjoint and the destination writable. -/
def memcpy (h : Heap) (dst src : Ptr) (n : Nat) : Except Fault Heap :=
  if n = 0 then .ok h
  else
    match loadBytes h src n with
    | .error e => .error e
    | .ok data =>
      if regionsOverlap dst src n = true then .error .overlap
      else storeBytes h dst data

/-- The expression `delete[] p`: nothing for null; otherwise `p` must be the
start of a live block obtained from `new[]`, which is released. -/
def deleteArray (h : Heap) (p : Ptr) : Except Fault Heap :=
  match p with
  | .null => .ok h
  | .addr b off =>
    match h.blocks[b]? with
    | none => .error .invalidDelete
    | some blk =>
      if blk.live = true ∧ blk.arrayNew = true ∧ off = 0 then
        .ok { blocks := h.blocks.set b ({ blk with live := false }),
              log := h.log ++ [.release b] }
      else .error .invalidDelete

/-- Pointer arithmetic, in bytes. -/
def Ptr.shift (p : Ptr) (k : Nat) : Ptr :=
  match p with
  | .null => .null
  | .addr b off => .addr b (off + k)

/-- The element `p[i]` of a `double *`. -/
def loadDouble (h : Heap) (p : Ptr) (i : Nat) : Except Fault Dbl :=
  loadBytes h (p.shift (i * sizeofDouble)) sizeofDouble

/-- Number of `double` elements of the live array starting exactly at `p`. -/
def arrayLength (h : Heap) (p : Ptr) : Option Nat :=
  match p with
  | .null => none
  | .addr b off =>
    match h.blocks[b]? with
    | none => none
    | some blk =>
      if blk.live = true ∧ off = 0 ∧ blk.cells.length % sizeofDouble = 0 then
        some (blk.cells.length / sizeofDouble)
      else none

/-- Whether block `b` exists and has not been released. -/
def isLive (h : Heap) (b : Nat) : Bool :=
  match h.blocks[b]? with
  | none => false
  | some blk => blk.live

/-! ## The class -/

/-- Modelled from the spec: the class declaration (`rmts.hpp`) is not part of
the sources. The data members are the three the member functions assign:
the dimension count `nx` and the two owned sequences `lower` and `upper`.
`nx = none` is the indeterminate value of a member that was never assigned. -/
structure RMTS where
  nx : Option CInt
  lower : Ptr
  upper : Ptr
deriving DecidableEq

/-- The constructor `RMTS::RMTS()`: both pointers become `NULL`; `nx` is not
assigned. It does not touch the storage. -/
def RMTS.RMTS : Smt.RMTS :=
  { nx := none, lower := .null, upper := .null }

/-- The destructor `RMTS::~RMTS()`: `delete[] lower; delete[] upper;`. -/
def RMTS.dtor (h : Heap) (self : Smt.RMTS) : Except Fault Heap :=
  match deleteArray h self.lower with
  | .error e => .error e
  | .ok h₁ => deleteArray h₁ self.upper

/-- The member function `RMTS::setup(int nx, double * lower, double * upper)`. -/
def RMTS.setup (h : Heap) (self : Smt.RMTS) (nx : CInt) (lower upper : Ptr) :
    Except Fault (Heap × Smt.RMTS) :=
  let self₁ : Smt.RMTS := { self with nx := some nx }
  match newArrayDouble h nx.val with
  | .error e => .error e
  | .ok (h₁, p₁) =>
    let self₂ : Smt.RMTS := { self₁ with lower := p₁ }
    match newArrayDouble h₁ nx.val with
    | .error e => .error e
    | .ok (h₂, p₂) =>
      let self₃ : Smt.RMTS := { self₂ with upper := p₂ }
      match memcpy h₂ self₃.lower lower (memcpyCount nx.val) with
      | .error e => .error e
      | .ok h₃ =>
        match memcpy h₃ self₃.upper upper (memcpyCount nx.val) with
        | .error e => .error e
        | .ok h₄ => .ok (h₄, self₃)

/-! ## Callers -/

/-- Little-endian object representation of the `double` with the given
IEEE-754 bit pattern. -/
def dblOfBits (bits : Nat) : Dbl :=
  (List.range sizeofDouble).map fun k => some (Fin.ofNat ((bits / 256 ^ k) % 256))

/-- The value `0.0`. -/
def dbl0 : Dbl := dblOfBits 0

/-- The value `1.0`. -/
def dbl1 : Dbl := dblOfBits 0x3FF0000000000000

/-- The value `5.0`. -/
def dbl5 : Dbl := dblOfBits 0x4014000000000000

/-- A caller's storage holding two buffers: block 0 holds the elements of
`L`, block 1 those of `U`. Neither comes from `new[]`. -/
def callerHeap (L U : List Dbl) : Heap :=
  { blocks := [{ cells := L.flatten, live := true, arrayNew := false },
               { cells := U.flatten, live := true, arrayNew := false }],
    log := [] }

/-! ## Derived notions used in the statements -/

/-- The storage after a successful `setup` on `h`: two more blocks holding the
copied bytes, and two more log entries. -/
def Heap.withArrays (h : Heap) (LB UB : List Cell) : Heap :=
  { blocks := h.blocks ++ [{ cells := LB, live := true, arrayNew := true },
                           { cells := UB, live := true, arrayNew := true }],
    log := h.log ++ [.alloc h.blocks.length LB.length, .alloc (h.blocks.length + 1) UB.length] }

/-- What allocation and release look at in a block: size, liveness, origin. -/
def Block.shape (b : Block) : Nat × Bool × Bool := (b.cells.length, b.live, b.arrayNew)

/-- Two storages that differ at most in the contents of their blocks. -/
def SameShape (h h' : Heap) : Prop :=
  h'.log = h.log ∧ h'.blocks.length = h.blocks.length ∧
    ∀ k : Nat, (h'.blocks[k]?).map Block.shape = (h.blocks[k]?).map Block.shape

/-- States of a store reachable from construction by one or more calls of
`setup` with a positive count (the storage is carried from call to call);
the last index is the count passed to the most recent call. -/
inductive Reachable : Heap → RMTS → CInt → Prop where
  | first {h h' : Heap} {o : RMTS} {d : CInt} {pL pU : Ptr} :
      0 < d.val → RMTS.setup h RMTS.RMTS d pL pU = .ok (h', o) → Reachable h' o d
  | again {h h' : Heap} {o o' : RMTS} {d₀ d : CInt} {pL pU : Ptr} :
      Reachable h o d₀ → 0 < d.val → RMTS.setup h o d pL pU = .ok (h', o') →
      Reachable h' o' d

/-! ## Example inputs -/

/-- The `int` value `-1`. -/
def intNeg1 : CInt := ⟨-1, by decide, by decide⟩

/-- The `int` value `0`. -/
def int0 : CInt := ⟨0, by decide, by decide⟩

/-- The `int` value `1`. -/
def int1 : CInt := ⟨1, by decide, by decide⟩

/-- The `int` value `2`. -/
def int2 : CInt := ⟨2, by decide, by decide⟩

/-- The `int` value `3`. -/
def int3 : CInt := ⟨3, by decide, by decide⟩

/-- A caller with two buffers of two doubles: `[1.0, 0.0]` and `[0.0, 1.0]`. -/
def heapA : Heap := callerHeap [dbl1, dbl0] [dbl0, dbl1]

/-- The storage after `setup(1, ..)` on `heapA`. -/
def heapB : Heap := heapA.withArrays dbl1 dbl0

/-- The storage after a further `setup(2, ..)`. -/
def heapC : Heap := heapB.withArrays (dbl1 ++ dbl0) (dbl0 ++ dbl1)

/-! # Proofs -/

/-! ## Arithmetic of the byte count -/

theorem toSizeT_of_nonneg (n : Int) (h₀ : 0 ≤ n) (h₁ : n < 2 ^ 31) :
    toSizeT n = n.toNat := by
  unfold toSizeT sizeModulus
  have h : n % ((2 ^ 64 : Nat) : Int) = n := by
    apply Int.emod_eq_of_lt h₀
    norm_num
    omega
  rw [h]

theorem memcpyCount_of_nonneg (n : Int) (h₀ : 0 ≤ n) (h₁ : n < 2 ^ 31) :
    memcpyCount n = n.toNat * sizeofDouble := by
  unfold memcpyCount sizeMul
  rw [toSizeT_of_nonneg n h₀ h₁]
  apply Nat.mod_eq_of_lt
  unfold sizeofDouble sizeModulus
  omega

theorem newArrayDouble_of_nonneg (h : Heap) (n : Int) (h₀ : 0 ≤ n) (h₁ : n < 2 ^ 31) :
    newArrayDouble h n =
      .ok ({ blocks := h.blocks ++
               [{ cells := List.replicate (n.toNat * sizeofDouble) none,
                  live := true, arrayNew := true }],
             log := h.log ++ [.alloc h.blocks.length (n.toNat * sizeofDouble)] },
           .addr h.blocks.length 0) := by
  unfold newArrayDouble
  have h₂ : ¬ n < 0 := by omega
  have h₃ : ¬ sizeModulus ≤ n.toNat * sizeofDouble := by
    unfold sizeofDouble sizeModulus
    omega
  simp [h₂, h₃]

/-! ## Loads and stores -/

theorem loadBytes_ok_iff (h : Heap) (b off n : Nat) (data : List Cell) :
    loadBytes h (.addr b off) n = .ok data ↔
      ∃ blk, h.blocks[b]? = some blk ∧ blk.live = true ∧ off + n ≤ blk.cells.length ∧
        data = (blk.cells.drop off).take n := by
  cases hb : h.blocks[b]? with
  | none => simp [loadBytes, hb]
  | some blk =>
    by_cases hc : blk.live = true ∧ off + n ≤ blk.cells.length
    · simp only [loadBytes, hb, hc, and_self, if_true, Except.ok.injEq, Option.some.injEq]
      constructor
      · intro hd
        exact ⟨blk, rfl, hc.1, hc.2, hd.symm⟩
      · rintro ⟨blk', rfl, -, -, hd⟩
        exact hd.symm
    · simp only [loadBytes, hb, hc, if_false, Option.some.injEq]
      constructor
      · intro hd
        cases hd
      · rintro ⟨blk', rfl, h₁, h₂, -⟩
        exact absurd ⟨h₁, h₂⟩ hc

theorem loadBytes_length {h : Heap} {p : Ptr} {n : Nat} {data : List Cell}
    (hl : loadBytes h p n = .ok data) : data.length = n := by
  cases p with
  | null => cases hl
  | addr b off =>
    obtain ⟨blk, -, -, hle, rfl⟩ := (loadBytes_ok_iff h b off n data).1 hl
    simp only [List.length_take, List.length_drop]
    omega

theorem loadBytes_block_lt {h : Heap} {b off n : Nat} {data : List Cell}
    (hl : loadBytes h (.addr b off) n = .ok data) : b < h.blocks.length := by
  obtain ⟨blk, hb, -⟩ := (loadBytes_ok_iff h b off n data).1 hl
  by_contra hge
  rw [List.getElem?_eq_none (by omega)] at hb
  cases hb

/-- Loads only look at the blocks, and blocks appended later do not disturb them. -/
theorem loadBytes_append {h : Heap} {p : Ptr} {n : Nat} {data : List Cell}
    (hl : loadBytes h p n = .ok data) (extra : List Block) (log : List Event) :
    loadBytes { blocks := h.blocks ++ extra, log := log } p n = .ok data := by
  cases p with
  | null => cases hl
  | addr b off =>
    have hlt := loadBytes_block_lt hl
    obtain ⟨blk, hb, h₁, h₂, hd⟩ := (loadBytes_ok_iff h b off n data).1 hl
    refine (loadBytes_ok_iff _ b off n data).2 ⟨blk, ?_, h₁, h₂, hd⟩
    simp only
    rw [List.getElem?_append_left hlt]
    exact hb

theorem regionsOverlap_of_block_ne {b₁ o₁ b₂ o₂ : Nat} (n : Nat) (hne : b₁ ≠ b₂) :
    regionsOverlap (.addr b₁ o₁) (.addr b₂ o₂) n = false := by
  simp [regionsOverlap, hne]

/-- Copying `m` bytes from another block over a whole live block of `m` bytes
replaces exactly that block's contents. -/
theorem memcpy_whole_block {h : Heap} {b m : Nat} {blk : Block} {src : Ptr} {data : List Cell}
    (hb : h.blocks[b]? = some blk) (hlive : blk.live = true) (hm : blk.cells.length = m)
    (hl : loadBytes h src m = .ok data)
    (hne : ∀ b' o', src = .addr b' o' → b ≠ b') (hpos : 0 < m) :
    memcpy h (.addr b 0) src m =
      .ok { h with blocks := h.blocks.set b ({ blk with cells := data }) } := by
  subst hm
  have hlen := loadBytes_length hl
  cases src with
  | null => cases hl
  | addr b' o' =>
    have hov := @regionsOverlap_of_block_ne b 0 b' o' blk.cells.length (hne b' o' rfl)
    simp only [memcpy, if_neg (Nat.ne_of_gt hpos), hl, hov, storeBytes, hb, hlive, hlen, Nat.zero_add, le_refl, and_self,
      if_true, List.take_zero, List.nil_append, List.drop_length, List.append_nil]
    simp

theorem set_length_append {α : Type} (l : List α) (a a' : α) (r : List α) :
    (l ++ a :: r).set l.length a' = l ++ a' :: r := by
  induction l with
  | nil => rfl
  | cons x l ih => simp [ih]

theorem getElem?_length_append {α : Type} (l : List α) (a : α) (r : List α) :
    (l ++ a :: r)[l.length]? = some a := by
  rw [List.getElem?_append_right (le_refl _)]
  simp

/-- Closed form of `RMTS::setup` on a positive count and readable buffers. -/
theorem setup_eq {h : Heap} (self : RMTS) {nx : CInt} {pL pU : Ptr} {LB UB : List Cell}
    (hpos : 0 < nx.val)
    (hL : loadBytes h pL (nx.val.toNat * sizeofDouble) = .ok LB)
    (hU : loadBytes h pU (nx.val.toNat * sizeofDouble) = .ok UB) :
    RMTS.setup h self nx pL pU =
      .ok (h.withArrays LB UB,
           { nx := some nx, lower := .addr h.blocks.length 0,
             upper := .addr (h.blocks.length + 1) 0 }) := by
  have hLlen := loadBytes_length hL
  have hUlen := loadBytes_length hU
  have hneL : ∀ b' o', pL = .addr b' o' → h.blocks.length ≠ b' := by
    rintro b' o' rfl
    exact Nat.ne_of_gt (loadBytes_block_lt hL)
  have hneU : ∀ b' o', pU = .addr b' o' → h.blocks.length + 1 ≠ b' := by
    rintro b' o' rfl
    have := loadBytes_block_lt hU
    omega
  have h₀ : 0 ≤ nx.val := le_of_lt hpos
  have hcount : 0 < nx.val.toNat * sizeofDouble := by
    unfold sizeofDouble
    omega
  unfold RMTS.setup
  rw [newArrayDouble_of_nonneg h nx.val h₀ nx.hi]
  simp only
  rw [newArrayDouble_of_nonneg _ nx.val h₀ nx.hi]
  simp only [memcpyCount_of_nonneg nx.val h₀ nx.hi, List.length_append, List.length_singleton,
    List.append_assoc, List.singleton_append]
  rw [memcpy_whole_block (getElem?_length_append _ _ _) rfl (List.length_replicate _ _)
    (loadBytes_append hL _ _) hneL hcount]
  simp only [set_length_append]
  have hb₂ : (h.blocks ++ [({ cells := LB, live := true, arrayNew := true } : Block),
      { cells := List.replicate (nx.val.toNat * sizeofDouble) none, live := true,
        arrayNew := true }])[h.blocks.length + 1]? =
      some { cells := List.replicate (nx.val.toNat * sizeofDouble) none, live := true,
             arrayNew := true } := by
    rw [List.getElem?_append_right (Nat.le_succ _)]
    simp
  rw [memcpy_whole_block hb₂ rfl (List.length_replicate _ _) (loadBytes_append hU _ _) hneU
    hcount]
  simp [Heap.withArrays, hLlen, hUlen]

/-- Closed form of `RMTS::setup` on a zero count: two empty arrays are
allocated and nothing is copied, whatever the two pointers are. -/
theorem setup_zero (h : Heap) (self : RMTS) {nx : CInt} (pL pU : Ptr) (hz : nx.val = 0) :
    RMTS.setup h self nx pL pU =
      .ok (h.withArrays [] [],
           { nx := some nx, lower := .addr h.blocks.length 0,
             upper := .addr (h.blocks.length + 1) 0 }) := by
  have h₀ : 0 ≤ nx.val := by omega
  have hcount : nx.val.toNat * sizeofDouble = 0 := by
    rw [hz]
    rfl
  unfold RMTS.setup
  rw [newArrayDouble_of_nonneg h nx.val h₀ nx.hi]
  simp only
  rw [newArrayDouble_of_nonneg _ nx.val h₀ nx.hi]
  simp [memcpyCount_of_nonneg nx.val h₀ nx.hi, hcount, memcpy, Heap.withArrays]

/-- A negative count never gets past the first `new double[nx]`. -/
theorem setup_of_neg (h : Heap) (self : RMTS) {nx : CInt} (pL pU : Ptr) (hneg : nx.val < 0) :
    RMTS.setup h self nx pL pU = .error .badArrayNewLength := by
  simp [RMTS.setup, newArrayDouble, hneg]

/-! ## Elements of a buffer -/

theorem take_drop_take {α : Type} (l : List α) (n k m : Nat) (hkm : k + m ≤ n) :
    ((l.take n).drop k).take m = (l.drop k).take m := by
  rw [List.drop_take, List.take_take, Nat.min_eq_left (by omega)]

theorem loadDouble_addr_ok_iff (h : Heap) (b off i : Nat) (x : Dbl) :
    loadDouble h (.addr b off) i = .ok x ↔
      ∃ blk, h.blocks[b]? = some blk ∧ blk.live = true ∧
        off + i * sizeofDouble + sizeofDouble ≤ blk.cells.length ∧
        x = (blk.cells.drop (off + i * sizeofDouble)).take sizeofDouble := by
  unfold loadDouble Ptr.shift
  exact loadBytes_ok_iff h b (off + i * sizeofDouble) sizeofDouble x

/-- A buffer whose `d > 0` elements can each be read can be read as a whole,
and the whole consists of those elements. -/
theorem loadBytes_of_elems {h : Heap} {p : Ptr} {L : List Dbl} (hpos : 0 < L.length)
    (hL : ∀ i (hi : i < L.length), loadDouble h p i = .ok L[i]) :
    ∃ LB, loadBytes h p (L.length * sizeofDouble) = .ok LB ∧
      ∀ i (hi : i < L.length), (LB.drop (i * sizeofDouble)).take sizeofDouble = L[i] := by
  cases p with
  | null => exact absurd (hL 0 hpos) (by simp [loadDouble, Ptr.shift, loadBytes])
  | addr b off =>
    have hlast := hL (L.length - 1) (by omega)
    obtain ⟨blk, hb, hlive, hle, -⟩ := (loadDouble_addr_ok_iff h b off _ _).1 hlast
    have hmul : (L.length - 1) * sizeofDouble + sizeofDouble = L.length * sizeofDouble := by
      have : L.length = (L.length - 1) + 1 := by omega
      conv_rhs => rw [this, Nat.add_mul, Nat.one_mul]
    have hle' : off + L.length * sizeofDouble ≤ blk.cells.length := by omega
    refine ⟨(blk.cells.drop off).take (L.length * sizeofDouble),
      (loadBytes_ok_iff h b off _ _).2 ⟨blk, hb, hlive, hle', rfl⟩, ?_⟩
    intro i hi
    obtain ⟨blk', hb', -, -, hx⟩ := (loadDouble_addr_ok_iff h b off i _).1 (hL i hi)
    rw [hb] at hb'
    cases hb'
    have hin : i * sizeofDouble + sizeofDouble ≤ L.length * sizeofDouble := by
      have : (i + 1) * sizeofDouble ≤ L.length * sizeofDouble := Nat.mul_le_mul_right _ hi
      rw [Nat.add_mul, Nat.one_mul] at this
      exact this
    rw [hx, take_drop_take _ _ _ _ hin, List.drop_drop]

/-- Reading element `i` of a whole live block. -/
theorem loadDouble_block_start {h : Heap} {b : Nat} {blk : Block} (hb : h.blocks[b]? = some blk)
    (hlive : blk.live = true) {n i : Nat} (hlen : blk.cells.length = n * sizeofDouble)
    (hi : i < n) :
    loadDouble h (.addr b 0) i = .ok ((blk.cells.drop (i * sizeofDouble)).take sizeofDouble) := by
  refine (loadDouble_addr_ok_iff h b 0 i _).2 ⟨blk, hb, hlive, ?_, by rw [Nat.zero_add]⟩
  have : (i + 1) * sizeofDouble ≤ n * sizeofDouble := Nat.mul_le_mul_right _ hi
  rw [Nat.add_mul, Nat.one_mul] at this
  omega

theorem withArrays_lower (h : Heap) (LB UB : List Cell) :
    (h.withArrays LB UB).blocks[h.blocks.length]? =
      some { cells := LB, live := true, arrayNew := true } := by
  unfold Heap.withArrays
  exact getElem?_length_append _ _ _

theorem withArrays_upper (h : Heap) (LB UB : List Cell) :
    (h.withArrays LB UB).blocks[h.blocks.length + 1]? =
      some { cells := UB, live := true, arrayNew := true } := by
  unfold Heap.withArrays
  simp only
  rw [List.getElem?_append_right (Nat.le_succ _)]
  simp

/-- What `setup` does on a positive count and two caller buffers holding the
sequences `L` and `U`. -/
theorem setup_elems {h : Heap} (self : RMTS) {d : CInt} {pL pU : Ptr} {L U : List Dbl}
    (hd : 0 < d.val) (hLlen : L.length = d.val.toNat) (hUlen : U.length = d.val.toNat)
    (hL : ∀ i (hi : i < L.length), loadDouble h pL i = .ok L[i])
    (hU : ∀ i (hi : i < U.length), loadDouble h pU i = .ok U[i]) :
    ∃ LB UB,
      RMTS.setup h self d pL pU =
        .ok (h.withArrays LB UB,
             { nx := some d, lower := .addr h.blocks.length 0,
               upper := .addr (h.blocks.length + 1) 0 }) ∧
      LB.length = d.val.toNat * sizeofDouble ∧ UB.length = d.val.toNat * sizeofDouble ∧
      (∀ i (hi : i < L.length), (LB.drop (i * sizeofDouble)).take sizeofDouble = L[i]) ∧
      (∀ i (hi : i < U.length), (UB.drop (i * sizeofDouble)).take sizeofDouble = U[i]) := by
  have hposL : 0 < L.length := by omega
  have hposU : 0 < U.length := by omega
  obtain ⟨LB, hLB, hLe⟩ := loadBytes_of_elems hposL hL
  obtain ⟨UB, hUB, hUe⟩ := loadBytes_of_elems hposU hU
  rw [hLlen] at hLB
  rw [hUlen] at hUB
  exact ⟨LB, UB, setup_eq self hd hLB hUB, loadBytes_length hLB,
    loadBytes_length hUB, hLe, hUe⟩

/-- Elements of the two arrays of `Heap.withArrays`. -/
theorem withArrays_loadDouble_lower (h : Heap) {LB UB : List Cell} {n i : Nat}
    (hlen : LB.length = n * sizeofDouble) (hi : i < n) :
    loadDouble (h.withArrays LB UB) (.addr h.blocks.length 0) i =
      .ok ((LB.drop (i * sizeofDouble)).take sizeofDouble) :=
  loadDouble_block_start (withArrays_lower h LB UB) rfl hlen hi

theorem withArrays_loadDouble_upper (h : Heap) {LB UB : List Cell} {n i : Nat}
    (hlen : UB.length = n * sizeofDouble) (hi : i < n) :
    loadDouble (h.withArrays LB UB) (.addr (h.blocks.length + 1) 0) i =
      .ok ((UB.drop (i * sizeofDouble)).take sizeofDouble) :=
  loadDouble_block_start (withArrays_upper h LB UB) rfl hlen hi

/-! ## Shape of the storage -/

theorem SameShape.refl (h : Heap) : SameShape h h :=
  ⟨rfl, rfl, fun _ => rfl⟩

theorem SameShape.trans {h₁ h₂ h₃ : Heap} (h₁₂ : SameShape h₁ h₂) (h₂₃ : SameShape h₂ h₃) :
    SameShape h₁ h₃ :=
  ⟨h₂₃.1.trans h₁₂.1, h₂₃.2.1.trans h₁₂.2.1, fun k => (h₂₃.2.2 k).trans (h₁₂.2.2 k)⟩

theorem storeBytes_sameShape {h h' : Heap} {p : Ptr} {data : List Cell}
    (hs : storeBytes h p data = .ok h') : SameShape h h' := by
  cases p with
  | null => cases hs
  | addr b off =>
    cases hb : h.blocks[b]? with
    | none => simp [storeBytes, hb] at hs
    | some blk =>
      by_cases hc : blk.live = true ∧ off + data.length ≤ blk.cells.length
      · simp only [storeBytes, hb, hc, and_self, if_true, Except.ok.injEq] at hs
        subst hs
        refine ⟨rfl, List.length_set _ _ _, fun k => ?_⟩
        simp only [List.getElem?_set]
        by_cases hk : b = k
        · subst hk
          have hlt : b < h.blocks.length := by
            by_contra hge
            rw [List.getElem?_eq_none (by omega)] at hb
            cases hb
          simp only [if_true, hlt, hb, Option.map_some', Block.shape, List.length_append,
            List.length_take, List.length_drop, Option.some.injEq, Prod.mk.injEq, and_true]
          exact ⟨by rw [Nat.min_eq_left (by omega)]; omega, hc.1.symm⟩
        · simp only [hk, if_false]
      · simp [storeBytes, hb, hc] at hs

theorem memcpy_sameShape {h h' : Heap} {dst src : Ptr} {n : Nat}
    (hm : memcpy h dst src n = .ok h') : SameShape h h' := by
  unfold memcpy at hm
  by_cases hn : n = 0
  · simp only [hn, if_true, Except.ok.injEq] at hm
    subst hm
    exact SameShape.refl h
  · simp only [hn, if_false] at hm
    cases hl : loadBytes h src n with
    | error e => simp [hl] at hm
    | ok data =>
      simp only [hl] at hm
      by_cases hov : regionsOverlap dst src n = true
      · simp [hov] at hm
      · simp only [hov] at hm
        exact storeBytes_sameShape hm

theorem arrayLength_of_sameShape {h h' : Heap} (hs : SameShape h h') (p : Ptr) :
    arrayLength h' p = arrayLength h p := by
  cases p with
  | null => rfl
  | addr b off =>
    have hk := hs.2.2 b
    cases hb : h.blocks[b]? with
    | none =>
      rw [hb] at hk
      cases hb' : h'.blocks[b]? with
      | none => simp only [arrayLength, hb, hb']
      | some blk' => rw [hb'] at hk; cases hk
    | some blk =>
      rw [hb] at hk
      cases hb' : h'.blocks[b]? with
      | none => rw [hb'] at hk; cases hk
      | some blk' =>
        rw [hb'] at hk
        simp only [Option.map_some', Option.some.injEq, Block.shape, Prod.mk.injEq] at hk
        simp only [arrayLength, hb, hb', hk.1, hk.2.1]

/-- Whatever the arguments, a call of `setup` that returns was given a
non-negative count, leaves the store pointing at the two blocks it appended,
and leaves the storage in the shape of those two allocations. -/
theorem setup_inv {h h' : Heap} {self o : RMTS} {d : CInt} {pL pU : Ptr}
    (hs : RMTS.setup h self d pL pU = .ok (h', o)) :
    0 ≤ d.val ∧
      o = { nx := some d, lower := .addr h.blocks.length 0,
            upper := .addr (h.blocks.length + 1) 0 } ∧
      SameShape (h.withArrays (List.replicate (d.val.toNat * sizeofDouble) none)
        (List.replicate (d.val.toNat * sizeofDouble) none)) h' := by
  by_cases h₀ : 0 ≤ d.val
  · refine ⟨h₀, ?_⟩
    unfold RMTS.setup at hs
    rw [newArrayDouble_of_nonneg h d.val h₀ d.hi] at hs
    simp only at hs
    rw [newArrayDouble_of_nonneg _ d.val h₀ d.hi] at hs
    simp only [List.length_append, List.length_singleton, List.append_assoc,
      List.singleton_append] at hs
    split at hs
    · cases hs
    · rename_i h₃ hm₁
      split at hs
      · cases hs
      · rename_i h₄ hm₂
        simp only [Except.ok.injEq, Prod.mk.injEq] at hs
        obtain ⟨rfl, rfl⟩ := hs
        refine ⟨rfl, ?_⟩
        have := (memcpy_sameShape hm₁).trans (memcpy_sameShape hm₂)
        simpa [Heap.withArrays] using this
  · have hneg : d.val < 0 := by omega
    simp [RMTS.setup, newArrayDouble, hneg] at hs

theorem arrayLength_withArrays_lower (h : Heap) {LB UB : List Cell} {n : Nat}
    (hlen : LB.length = n * sizeofDouble) :
    arrayLength (h.withArrays LB UB) (.addr h.blocks.length 0) = some n := by
  simp only [arrayLength, withArrays_lower, hlen, Nat.mul_mod_left, and_self, if_true,
    Nat.mul_div_cancel _ (show 0 < sizeofDouble by decide)]

theorem arrayLength_withArrays_upper (h : Heap) {LB UB : List Cell} {n : Nat}
    (hlen : UB.length = n * sizeofDouble) :
    arrayLength (h.withArrays LB UB) (.addr (h.blocks.length + 1) 0) = some n := by
  simp only [arrayLength, withArrays_upper, hlen, Nat.mul_mod_left, and_self, if_true,
    Nat.mul_div_cancel _ (show 0 < sizeofDouble by decide)]

/-- The postcondition of any returning `setup` call that C3 needs. -/
theorem setup_lengths {h h' : Heap} {self o : RMTS} {d : CInt} {pL pU : Ptr}
    (hs : RMTS.setup h self d pL pU = .ok (h', o)) :
    o.nx = some d ∧ arrayLength h' o.lower = some d.val.toNat ∧
      arrayLength h' o.upper = some d.val.toNat := by
  obtain ⟨-, rfl, hshape⟩ := setup_inv hs
  refine ⟨rfl, ?_, ?_⟩
  · rw [arrayLength_of_sameShape hshape]
    exact arrayLength_withArrays_lower h (List.length_replicate _ _)
  · rw [arrayLength_of_sameShape hshape]
    exact arrayLength_withArrays_upper h (List.length_replicate _ _)

/-! ## Writes by the caller -/

theorem storeBytes_other {h h' : Heap} {b off : Nat} {data : List Cell}
    (hs : storeBytes h (.addr b off) data = .ok h') {c : Nat} (hne : b ≠ c) :
    h'.blocks[c]? = h.blocks[c]? := by
  cases hb : h.blocks[b]? with
  | none => simp [storeBytes, hb] at hs
  | some blk =>
    by_cases hc : blk.live = true ∧ off + data.length ≤ blk.cells.length
    · simp only [storeBytes, hb, hc, and_self, if_true, Except.ok.injEq] at hs
      subst hs
      simp only [List.getElem?_set, hne, if_false]
    · simp [storeBytes, hb, hc] at hs

theorem loadDouble_congr {h h' : Heap} {b : Nat} (hb : h'.blocks[b]? = h.blocks[b]?)
    (off i : Nat) : loadDouble h' (.addr b off) i = loadDouble h (.addr b off) i := by
  simp only [loadDouble, Ptr.shift, loadBytes, hb]

/-- A write inside a region that can be read succeeds. -/
theorem storeBytes_ok_of_load {h : Heap} {b off n : Nat} {LB : List Cell}
    (hl : loadBytes h (.addr b off) n = .ok LB) (k : Nat) (data : List Cell)
    (hk : k + data.length ≤ n) :
    ∃ h', storeBytes h (.addr b (off + k)) data = .ok h' := by
  obtain ⟨blk, hb, hlive, hle, -⟩ := (loadBytes_ok_iff h b off n LB).1 hl
  have hc : blk.live = true ∧ off + k + data.length ≤ blk.cells.length := ⟨hlive, by omega⟩
  simp only [storeBytes, hb, if_pos hc]
  exact ⟨_, rfl⟩

/-! ## Teardown -/

/-- Closed form of the destructor on a store that owns the two arrays of
`Heap.withArrays`. -/
theorem dtor_withArrays (h : Heap) (LB UB : List Cell) (nx : Option CInt) :
    RMTS.dtor (h.withArrays LB UB)
        { nx := nx, lower := .addr h.blocks.length 0, upper := .addr (h.blocks.length + 1) 0 } =
      .ok { blocks := h.blocks ++ [{ cells := LB, live := false, arrayNew := true },
                                   { cells := UB, live := false, arrayNew := true }],
            log := h.log ++ [.alloc h.blocks.length LB.length,
                             .alloc (h.blocks.length + 1) UB.length,
                             .release h.blocks.length, .release (h.blocks.length + 1)] } := by
  have h₁ : deleteArray (h.withArrays LB UB) (.addr h.blocks.length 0) =
      .ok { blocks := h.blocks ++ [{ cells := LB, live := false, arrayNew := true },
                                   { cells := UB, live := true, arrayNew := true }],
            log := (h.withArrays LB UB).log ++ [.release h.blocks.length] } := by
    simp only [deleteArray, withArrays_lower, and_self, if_true]
    simp only [Heap.withArrays, set_length_append]
  have hb : (h.blocks ++ [({ cells := LB, live := false, arrayNew := true } : Block),
      { cells := UB, live := true, arrayNew := true }])[h.blocks.length + 1]? =
      some { cells := UB, live := true, arrayNew := true } := by
    rw [List.getElem?_append_right (Nat.le_succ _)]
    simp
  have hset : (h.blocks ++ [({ cells := LB, live := false, arrayNew := true } : Block),
      { cells := UB, live := true, arrayNew := true }]).set (h.blocks.length + 1)
        { cells := UB, live := false, arrayNew := true } =
      h.blocks ++ [{ cells := LB, live := false, arrayNew := true },
                   { cells := UB, live := false, arrayNew := true }] := by
    simp
  unfold RMTS.dtor
  simp only
  rw [h₁]
  simp only [deleteArray, hb, and_self, if_true, hset]
  simp [Heap.withArrays]

theorem isLive_appended_lower (h : Heap) (a b : Block) (r : List Block) (log : List Event) :
    isLive { blocks := h.blocks ++ a :: b :: r, log := log } h.blocks.length = a.live := by
  simp only [isLive, getElem?_length_append]

theorem isLive_appended_upper (h : Heap) (a b : Block) (r : List Block) (log : List Event) :
    isLive { blocks := h.blocks ++ a :: b :: r, log := log } (h.blocks.length + 1) = b.live := by
  have hb : (h.blocks ++ a :: b :: r)[h.blocks.length + 1]? = some b := by
    rw [List.getElem?_append_right (Nat.le_succ _)]
    simp
  simp only [isLive, hb]

theorem isLive_appended_old (h : Heap) (extra : List Block) (log : List Event) {b : Nat}
    (hb : b < h.blocks.length) :
    isLive { blocks := h.blocks ++ extra, log := log } b = isLive h b := by
  simp only [isLive, List.getElem?_append_left hb]

theorem isLive_of_sameShape {h h' : Heap} (hs : SameShape h h') (b : Nat) :
    isLive h' b = isLive h b := by
  have hk := hs.2.2 b
  cases hb : h.blocks[b]? with
  | none =>
    rw [hb] at hk
    cases hb' : h'.blocks[b]? with
    | none => simp only [isLive, hb, hb']
    | some blk' => rw [hb'] at hk; cases hk
  | some blk =>
    rw [hb] at hk
    cases hb' : h'.blocks[b]? with
    | none => rw [hb'] at hk; cases hk
    | some blk' =>
      rw [hb'] at hk
      simp only [Option.map_some', Option.some.injEq, Block.shape, Prod.mk.injEq] at hk
      simp only [isLive, hb, hb', hk.2.1]

/-! # The claims -/

/-- C1 (copy fidelity). For every positive `int` count `d` and all sequences
`L`, `U` of `d` doubles held in the caller's buffers `pL`, `pU`, constructing
a store and calling `setup(d, pL, pU)` returns, and in the resulting store
`lower[i] = L[i]` and `upper[i] = U[i]` for every index `i < d`. -/
theorem setup_copy_fidelity (h : Heap) (d : CInt) (pL pU : Ptr) (L U : List Dbl)
    (hd : 0 < d.val) (hLlen : L.length = d.val.toNat) (hUlen : U.length = d.val.toNat)
    (hL : ∀ i (hi : i < L.length), loadDouble h pL i = .ok L[i])
    (hU : ∀ i (hi : i < U.length), loadDouble h pU i = .ok U[i]) :
    ∃ h' o, RMTS.setup h RMTS.RMTS d pL pU = .ok (h', o) ∧
      (∀ i (hi : i < L.length), loadDouble h' o.lower i = .ok L[i]) ∧
      (∀ i (hi : i < U.length), loadDouble h' o.upper i = .ok U[i]) := by
  obtain ⟨LB, UB, hs, hLB, hUB, hLe, hUe⟩ := setup_elems RMTS.RMTS hd hLlen hUlen hL hU
  refine ⟨_, _, hs, ?_, ?_⟩
  · intro i hi
    rw [withArrays_loadDouble_lower h hLB (by omega), hLe i hi]
  · intro i hi
    rw [withArrays_loadDouble_upper h hUB (by omega), hUe i hi]

/-- Instance of C1: three dimensions, `L = [0,0,0]`, `U = [1,1,1]`. -/
theorem setup_copy_fidelity_witness :
    ∃ h' o, RMTS.setup (callerHeap [dbl0, dbl0, dbl0] [dbl1, dbl1, dbl1]) RMTS.RMTS
        int3 (.addr 0 0) (.addr 1 0) = .ok (h', o) ∧
      (∀ i (hi : i < [dbl0, dbl0, dbl0].length),
        loadDouble h' o.lower i = .ok [dbl0, dbl0, dbl0][i]) ∧
      (∀ i (hi : i < [dbl1, dbl1, dbl1].length),
        loadDouble h' o.upper i = .ok [dbl1, dbl1, dbl1][i]) :=
  setup_copy_fidelity (callerHeap [dbl0, dbl0, dbl0] [dbl1, dbl1, dbl1])
    int3 (.addr 0 0) (.addr 1 0) [dbl0, dbl0, dbl0] [dbl1, dbl1, dbl1]
    (show 0 < int3.val by decide) (by decide) (by decide)
    (fun i hi => match i, hi with
      | 0, _ => rfl
      | 1, _ => rfl
      | 2, _ => rfl
      | n + 3, hn => absurd hn (by simp))
    (fun i hi => match i, hi with
      | 0, _ => rfl
      | 1, _ => rfl
      | 2, _ => rfl
      | n + 3, hn => absurd hn (by simp))

/-- C2 (construction). The constructor is a total constant; the store it
yields has both sequences null, no dimension count, and so no backing array
in any storage. -/
theorem ctor_empty :
    RMTS.RMTS.lower = .null ∧ RMTS.RMTS.upper = .null ∧ RMTS.RMTS.nx = none ∧
      ∀ h : Heap, arrayLength h RMTS.RMTS.lower = none ∧
        arrayLength h RMTS.RMTS.upper = none :=
  ⟨rfl, rfl, rfl, fun _ => ⟨rfl, rfl⟩⟩

/-- C3 (length invariant). In every state reachable from the constructed
store by one or more `setup` calls with a positive count, the store's
dimension count `nx` is the positive count passed to the most recent call,
and its lower and upper sequences are live arrays of exactly `nx` elements
each. -/
theorem length_invariant (h : Heap) (o : RMTS) (d : CInt) (hr : Reachable h o d) :
    0 < d.val ∧ o.nx = some d ∧
      arrayLength h o.lower = some d.val.toNat ∧
      arrayLength h o.upper = some d.val.toNat := by
  cases hr with
  | first hd hs => exact ⟨hd, setup_lengths hs⟩
  | again _ hd hs => exact ⟨hd, setup_lengths hs⟩

/-- Instance of C3: the state after `setup(1, ..)` then `setup(2, ..)`. -/
theorem length_invariant_witness :
    Reachable heapC { nx := some int2, lower := .addr 4 0, upper := .addr 5 0 } int2 ∧
      0 < int2.val ∧ some int2 = some int2 ∧
      arrayLength heapC (.addr 4 0) = some int2.val.toNat ∧
      arrayLength heapC (.addr 5 0) = some int2.val.toNat :=
  have hr : Reachable heapC { nx := some int2, lower := .addr 4 0, upper := .addr 5 0 } int2 :=
    Reachable.again
      (Reachable.first (show 0 < int1.val by decide)
        (show RMTS.setup heapA RMTS.RMTS int1 (.addr 0 0) (.addr 1 0) =
            .ok (heapB, { nx := some int1, lower := .addr 2 0, upper := .addr 3 0 }) from rfl))
      (show 0 < int2.val by decide)
      (show RMTS.setup heapB _ int2 (.addr 0 0) (.addr 1 0) = _ from rfl)
  ⟨hr, length_invariant _ _ _ hr⟩

/-- C4 (copy independence). After `setup(d, pL, pU)` has returned, a write of
any bytes anywhere inside the caller's buffer `L` or inside the caller's
buffer `U` succeeds and leaves every element of the store's lower and upper
sequences equal to the value `L[i]`, `U[i]` had at call time; the stored
sequences live in blocks that did not exist before the call. -/
theorem setup_copy_independent (h : Heap) (d : CInt) (pL pU : Ptr) (L U : List Dbl)
    (hd : 0 < d.val) (hLlen : L.length = d.val.toNat) (hUlen : U.length = d.val.toNat)
    (hL : ∀ i (hi : i < L.length), loadDouble h pL i = .ok L[i])
    (hU : ∀ i (hi : i < U.length), loadDouble h pU i = .ok U[i])
    (q : Ptr) (k : Nat) (data : List Cell)
    (hq : q = pL.shift k ∨ q = pU.shift k)
    (hk : k + data.length ≤ d.val.toNat * sizeofDouble) :
    ∃ h' o, RMTS.setup h RMTS.RMTS d pL pU = .ok (h', o) ∧
      (∀ b off, o.lower = .addr b off ∨ o.upper = .addr b off → h.blocks[b]? = none) ∧
      ∃ h'', storeBytes h' q data = .ok h'' ∧
        (∀ i (hi : i < L.length), loadDouble h'' o.lower i = .ok L[i]) ∧
        (∀ i (hi : i < U.length), loadDouble h'' o.upper i = .ok U[i]) := by
  obtain ⟨LB, UB, hs, hLB, hUB, hLe, hUe⟩ := setup_elems RMTS.RMTS hd hLlen hUlen hL hU
  obtain ⟨LB', hLB'⟩ : ∃ x, loadBytes h pL (d.val.toNat * sizeofDouble) = .ok x := by
    obtain ⟨x, hx, -⟩ := loadBytes_of_elems (by omega) hL
    exact ⟨x, hLlen ▸ hx⟩
  obtain ⟨UB', hUB'⟩ : ∃ x, loadBytes h pU (d.val.toNat * sizeofDouble) = .ok x := by
    obtain ⟨x, hx, -⟩ := loadBytes_of_elems (by omega) hU
    exact ⟨x, hUlen ▸ hx⟩
  -- the written pointer addresses a block that existed before the call
  obtain ⟨b, off, hqb, hlt, h'', hst⟩ : ∃ b off, q = .addr b off ∧ b < h.blocks.length ∧
      ∃ h'', storeBytes (h.withArrays LB UB) q data = .ok h'' := by
    rcases hq with rfl | rfl
    · cases pL with
      | null => cases hLB'
      | addr b off =>
        exact ⟨b, off + k, rfl, loadBytes_block_lt hLB',
          storeBytes_ok_of_load (loadBytes_append hLB' _ _) k data hk⟩
    · cases pU with
      | null => cases hUB'
      | addr b off =>
        exact ⟨b, off + k, rfl, loadBytes_block_lt hUB',
          storeBytes_ok_of_load (loadBytes_append hUB' _ _) k data hk⟩
  subst hqb
  refine ⟨_, _, hs, ?_, h'', hst, ?_, ?_⟩
  · rintro b' off' (hp | hp) <;> cases hp <;> exact List.getElem?_eq_none (by omega)
  · intro i hi
    rw [loadDouble_congr (storeBytes_other hst (Nat.ne_of_lt hlt)),
      withArrays_loadDouble_lower h hLB (by omega), hLe i hi]
  · intro i hi
    rw [loadDouble_congr (storeBytes_other hst (show b ≠ h.blocks.length + 1 by omega)),
      withArrays_loadDouble_upper h hUB (by omega), hUe i hi]

/-- Instance of C4: after `setup(2, [1,0], [0,1])` the caller overwrites
`L[1]` with `5.0`; the store still holds `[1,0]` and `[0,1]`. -/
theorem setup_copy_independent_witness :
    ∃ h' o, RMTS.setup heapA RMTS.RMTS int2 (.addr 0 0) (.addr 1 0) = .ok (h', o) ∧
      (∀ b off, o.lower = .addr b off ∨ o.upper = .addr b off → heapA.blocks[b]? = none) ∧
      ∃ h'', storeBytes h' (.addr 0 8) dbl5 = .ok h'' ∧
        (∀ i (hi : i < [dbl1, dbl0].length), loadDouble h'' o.lower i = .ok [dbl1, dbl0][i]) ∧
        (∀ i (hi : i < [dbl0, dbl1].length), loadDouble h'' o.upper i = .ok [dbl0, dbl1][i]) :=
  setup_copy_independent heapA int2 (.addr 0 0) (.addr 1 0) [dbl1, dbl0] [dbl0, dbl1]
    (show 0 < int2.val by decide) (show 2 = int2.val.toNat by decide)
    (show 2 = int2.val.toNat by decide)
    (fun i hi => match i, hi with
      | 0, _ => rfl
      | 1, _ => rfl
      | n + 2, hn => absurd hn (by simp))
    (fun i hi => match i, hi with
      | 0, _ => rfl
      | 1, _ => rfl
      | n + 2, hn => absurd hn (by simp))
    (.addr 0 8) 8 dbl5 (Or.inl rfl) (by decide)

/-- C5 (no ordering check). Whatever the relation between `L[i]` and `U[i]`
(none is assumed), for every positive count `d` the call `setup(d, L, U)`
returns and stores `L` and `U` unchanged. In particular it does so for the
zero-width bound `setup(1, [5.0], [5.0])` and for `setup(2, [1,0], [0,1])`,
whose lower bound exceeds the upper bound in dimension 0. -/
theorem setup_no_ordering_check :
    (∀ (h : Heap) (d : CInt) (pL pU : Ptr) (L U : List Dbl),
      0 < d.val → L.length = d.val.toNat → U.length = d.val.toNat →
      (∀ i (hi : i < L.length), loadDouble h pL i = .ok L[i]) →
      (∀ i (hi : i < U.length), loadDouble h pU i = .ok U[i]) →
      ∃ h' o, RMTS.setup h RMTS.RMTS d pL pU = .ok (h', o) ∧ o.nx = some d ∧
        (∀ i (hi : i < L.length), loadDouble h' o.lower i = .ok L[i]) ∧
        (∀ i (hi : i < U.length), loadDouble h' o.upper i = .ok U[i])) ∧
    (∃ h' o, RMTS.setup (callerHeap [dbl5] [dbl5]) RMTS.RMTS int1 (.addr 0 0) (.addr 1 0) =
        .ok (h', o) ∧
      loadDouble h' o.lower 0 = .ok dbl5 ∧ loadDouble h' o.upper 0 = .ok dbl5) ∧
    (∃ h' o, RMTS.setup (callerHeap [dbl1, dbl0] [dbl0, dbl1]) RMTS.RMTS int2 (.addr 0 0)
        (.addr 1 0) = .ok (h', o) ∧
      loadDouble h' o.lower 0 = .ok dbl1 ∧ loadDouble h' o.upper 0 = .ok dbl0 ∧
      loadDouble h' o.lower 1 = .ok dbl0 ∧ loadDouble h' o.upper 1 = .ok dbl1) := by
  refine ⟨?_, ?_, ?_⟩
  · intro h d pL pU L U hd hLlen hUlen hL hU
    obtain ⟨LB, UB, hs, hLB, hUB, hLe, hUe⟩ := setup_elems RMTS.RMTS hd hLlen hUlen hL hU
    refine ⟨_, _, hs, rfl, ?_, ?_⟩
    · intro i hi
      rw [withArrays_loadDouble_lower h hLB (by omega), hLe i hi]
    · intro i hi
      rw [withArrays_loadDouble_upper h hUB (by omega), hUe i hi]
  · exact ⟨(callerHeap [dbl5] [dbl5]).withArrays dbl5 dbl5, _, rfl, rfl, rfl⟩
  · exact ⟨(callerHeap [dbl1, dbl0] [dbl0, dbl1]).withArrays (dbl1 ++ dbl0) (dbl0 ++ dbl1), _,
      rfl, rfl, rfl, rfl, rfl⟩

/-- C6, as stated, fails at a negative count: with two valid one-element
buffers the call `setup(-1, L, U)` does not return normally, because
`new double[-1]` throws `std::bad_array_new_length`. -/
theorem setup_negative_count_throws :
    RMTS.setup (callerHeap [dbl0] [dbl1]) RMTS.RMTS intNeg1 (.addr 0 0) (.addr 1 0) =
      .error .badArrayNewLength :=
  rfl

/-- C6, amended. Let the caller's buffers each hold at least `nx` readable
doubles whenever `nx` is positive (nothing is asked of them otherwise). Then
`setup` returns normally exactly when `nx ≥ 0`: for every `int` count
`nx ≥ 0`, zero included, the call returns a store whose count is `nx`; and
for every negative `nx`, whatever the buffers, the call ends in
`std::bad_array_new_length` thrown by `new double[nx]`. -/
theorem setup_returns_iff_nonneg (h : Heap) (self : RMTS) (nx : CInt) (pL pU : Ptr)
    (hL : 0 < nx.val → ∃ LB, loadBytes h pL (nx.val.toNat * sizeofDouble) = .ok LB)
    (hU : 0 < nx.val → ∃ UB, loadBytes h pU (nx.val.toNat * sizeofDouble) = .ok UB) :
    (0 ≤ nx.val → ∃ h' o, RMTS.setup h self nx pL pU = .ok (h', o) ∧ o.nx = some nx) ∧
      (nx.val < 0 → RMTS.setup h self nx pL pU = .error .badArrayNewLength) ∧
      ((∃ h' o, RMTS.setup h self nx pL pU = .ok (h', o)) ↔ 0 ≤ nx.val) := by
  have hret : 0 ≤ nx.val → ∃ h' o, RMTS.setup h self nx pL pU = .ok (h', o) ∧
      o.nx = some nx := by
    intro h₀
    by_cases hz : nx.val = 0
    · exact ⟨_, _, setup_zero h self pL pU hz, rfl⟩
    · have hpos : 0 < nx.val := by omega
      obtain ⟨LB, hLB⟩ := hL hpos
      obtain ⟨UB, hUB⟩ := hU hpos
      exact ⟨_, _, setup_eq self hpos hLB hUB, rfl⟩
  refine ⟨hret, fun hneg => setup_of_neg h self pL pU hneg, ?_, ?_⟩
  · rintro ⟨h', o, hs⟩
    by_contra hneg
    rw [setup_of_neg h self pL pU (by omega)] at hs
    cases hs
  · intro h₀
    obtain ⟨h', o, hs, -⟩ := hret h₀
    exact ⟨h', o, hs⟩

/-- Instances of amended C6: `setup(2, [1,0], [0,1])` returns with count 2;
`setup(0, NULL, NULL)` returns with count 0; `setup(-1, ..)` on the same
two-element buffers throws. -/
theorem setup_returns_iff_nonneg_witness :
    (∃ h' o, RMTS.setup heapA RMTS.RMTS int2 (.addr 0 0) (.addr 1 0) = .ok (h', o) ∧
        o.nx = some int2) ∧
      (∃ h' o, RMTS.setup heapA RMTS.RMTS int0 .null .null = .ok (h', o) ∧
        o.nx = some int0) ∧
      RMTS.setup heapA RMTS.RMTS intNeg1 (.addr 0 0) (.addr 1 0) =
        .error .badArrayNewLength :=
  ⟨(setup_returns_iff_nonneg heapA RMTS.RMTS int2 (.addr 0 0) (.addr 1 0)
      (fun _ => ⟨dbl1 ++ dbl0, rfl⟩) (fun _ => ⟨dbl0 ++ dbl1, rfl⟩)).1
      (show 0 ≤ int2.val by decide),
   (setup_returns_iff_nonneg heapA RMTS.RMTS int0 .null .null
      (fun hpos => absurd hpos (by decide)) (fun hpos => absurd hpos (by decide))).1
      (show 0 ≤ int0.val by decide),
   (setup_returns_iff_nonneg heapA RMTS.RMTS intNeg1 (.addr 0 0) (.addr 1 0)
      (fun hpos => absurd hpos (by decide)) (fun hpos => absurd hpos (by decide))).2.1
      (show intNeg1.val < 0 by decide)⟩

/-- C7 (safe empty teardown). Destroying a store right after construction
returns normally and leaves the storage, allocation log included, exactly as
it was: nothing is released. -/
theorem dtor_after_ctor (h : Heap) : RMTS.dtor h RMTS.RMTS = .ok h := rfl

/-- C8 (balanced allocation). For every positive count `d`, on a store that
is constructed, set up once with `setup(d, L, U)` and destroyed: both calls
return; the log gains exactly two allocations, of `d` doubles each, followed
by exactly one release of each of them; afterwards neither block is live,
and every block that existed before is as it was. -/
theorem setup_dtor_balanced (h : Heap) (d : CInt) (pL pU : Ptr) (L U : List Dbl)
    (hd : 0 < d.val) (hLlen : L.length = d.val.toNat) (hUlen : U.length = d.val.toNat)
    (hL : ∀ i (hi : i < L.length), loadDouble h pL i = .ok L[i])
    (hU : ∀ i (hi : i < U.length), loadDouble h pU i = .ok U[i]) :
    ∃ h₁ o h₂, RMTS.setup h RMTS.RMTS d pL pU = .ok (h₁, o) ∧ RMTS.dtor h₁ o = .ok h₂ ∧
      h₁.log = h.log ++ [.alloc h.blocks.length (d.val.toNat * sizeofDouble),
                         .alloc (h.blocks.length + 1) (d.val.toNat * sizeofDouble)] ∧
      h₂.log = h₁.log ++ [.release h.blocks.length, .release (h.blocks.length + 1)] ∧
      isLive h₁ h.blocks.length = true ∧ isLive h₁ (h.blocks.length + 1) = true ∧
      isLive h₂ h.blocks.length = false ∧ isLive h₂ (h.blocks.length + 1) = false ∧
      h₂.blocks.length = h.blocks.length + 2 ∧
      ∀ b, b < h.blocks.length → h₂.blocks[b]? = h.blocks[b]? := by
  obtain ⟨LB, UB, hs, hLB, hUB, -, -⟩ := setup_elems RMTS.RMTS hd hLlen hUlen hL hU
  refine ⟨_, _, _, hs, dtor_withArrays h LB UB _, ?_, ?_, ?_, ?_, ?_, ?_, ?_, ?_⟩
  · simp only [Heap.withArrays, hLB, hUB]
  · simp [Heap.withArrays]
  · exact isLive_appended_lower h _ _ _ _
  · exact isLive_appended_upper h _ _ _ _
  · exact isLive_appended_lower h _ _ _ _
  · exact isLive_appended_upper h _ _ _ _
  · simp
  · intro b hb
    exact List.getElem?_append_left hb

/-- Instance of C8: `setup(3, [0,0,0], [1,1,1])` then destruction. -/
theorem setup_dtor_balanced_witness :
    ∃ h₁ o h₂,
      RMTS.setup (callerHeap [dbl0, dbl0, dbl0] [dbl1, dbl1, dbl1]) RMTS.RMTS int3
        (.addr 0 0) (.addr 1 0) = .ok (h₁, o) ∧ RMTS.dtor h₁ o = .ok h₂ ∧
      h₁.log = [.alloc 2 24, .alloc 3 24] ∧
      h₂.log = h₁.log ++ [.release 2, .release 3] ∧
      isLive h₁ 2 = true ∧ isLive h₁ 3 = true ∧
      isLive h₂ 2 = false ∧ isLive h₂ 3 = false ∧
      h₂.blocks.length = 4 ∧
      ∀ b, b < 2 → h₂.blocks[b]? =
        (callerHeap [dbl0, dbl0, dbl0] [dbl1, dbl1, dbl1]).blocks[b]? :=
  setup_dtor_balanced (callerHeap [dbl0, dbl0, dbl0] [dbl1, dbl1, dbl1]) int3
    (.addr 0 0) (.addr 1 0) [dbl0, dbl0, dbl0] [dbl1, dbl1, dbl1]
    (show 0 < int3.val by decide) (show 3 = int3.val.toNat by decide)
    (show 3 = int3.val.toNat by decide)
    (fun i hi => match i, hi with
      | 0, _ => rfl
      | 1, _ => rfl
      | 2, _ => rfl
      | n + 3, hn => absurd hn (by simp))
    (fun i hi => match i, hi with
      | 0, _ => rfl
      | 1, _ => rfl
      | 2, _ => rfl
      | n + 3, hn => absurd hn (by simp))

/-- C9 (second `setup` leaks). Let a first `setup` on a constructed store
have returned, and let a second `setup(d₂, L₂, U₂)` be made on the same store.
The second call returns and the store then refers to two new blocks, no
longer to the two blocks of the first call; neither the second call nor the
destructor releases those: the destructor releases exactly the two blocks of
the second call, and the two blocks of the first call stay live. -/
theorem setup_twice_leaks (h h₁ : Heap) (o₁ : RMTS) (d₁ d₂ : CInt)
    (pL₁ pU₁ pL₂ pU₂ : Ptr) (L₂ U₂ : List Dbl)
    (hs₁ : RMTS.setup h RMTS.RMTS d₁ pL₁ pU₁ = .ok (h₁, o₁))
    (hd₂ : 0 < d₂.val) (hLlen : L₂.length = d₂.val.toNat) (hUlen : U₂.length = d₂.val.toNat)
    (hL₂ : ∀ i (hi : i < L₂.length), loadDouble h₁ pL₂ i = .ok L₂[i])
    (hU₂ : ∀ i (hi : i < U₂.length), loadDouble h₁ pU₂ i = .ok U₂[i]) :
    ∃ h₂ o₂ h₃, RMTS.setup h₁ o₁ d₂ pL₂ pU₂ = .ok (h₂, o₂) ∧ RMTS.dtor h₂ o₂ = .ok h₃ ∧
      o₁.lower = .addr h.blocks.length 0 ∧ o₁.upper = .addr (h.blocks.length + 1) 0 ∧
      o₂.lower = .addr (h.blocks.length + 2) 0 ∧ o₂.upper = .addr (h.blocks.length + 3) 0 ∧
      h₂.log = h.log ++
        [.alloc h.blocks.length (d₁.val.toNat * sizeofDouble),
         .alloc (h.blocks.length + 1) (d₁.val.toNat * sizeofDouble),
         .alloc (h.blocks.length + 2) (d₂.val.toNat * sizeofDouble),
         .alloc (h.blocks.length + 3) (d₂.val.toNat * sizeofDouble)] ∧
      h₃.log = h₂.log ++ [.release (h.blocks.length + 2), .release (h.blocks.length + 3)] ∧
      isLive h₂ h.blocks.length = true ∧ isLive h₂ (h.blocks.length + 1) = true ∧
      isLive h₃ h.blocks.length = true ∧ isLive h₃ (h.blocks.length + 1) = true ∧
      isLive h₃ (h.blocks.length + 2) = false ∧ isLive h₃ (h.blocks.length + 3) = false := by
  obtain ⟨-, rfl, hshape⟩ := setup_inv hs₁
  obtain ⟨LB, UB, hs₂, hLB, hUB, -, -⟩ := setup_elems
    ({ nx := some d₁, lower := .addr h.blocks.length 0,
       upper := .addr (h.blocks.length + 1) 0 } : RMTS) hd₂ hLlen hUlen hL₂ hU₂
  have hlen : h₁.blocks.length = h.blocks.length + 2 := by
    rw [hshape.2.1]
    simp [Heap.withArrays]
  have hlog : h₁.log = h.log ++
      [.alloc h.blocks.length (d₁.val.toNat * sizeofDouble),
       .alloc (h.blocks.length + 1) (d₁.val.toNat * sizeofDouble)] := by
    rw [hshape.1]
    simp [Heap.withArrays]
  have hlive₀ : isLive h₁ h.blocks.length = true := by
    rw [isLive_of_sameShape hshape]
    exact isLive_appended_lower h _ _ _ _
  have hlive₁ : isLive h₁ (h.blocks.length + 1) = true := by
    rw [isLive_of_sameShape hshape]
    exact isLive_appended_upper h _ _ _ _
  rw [hlen] at hs₂
  have hd := dtor_withArrays h₁ LB UB (some d₂)
  rw [hlen] at hd
  refine ⟨_, _, _, hs₂, hd, rfl, rfl, rfl, rfl, ?_, ?_, ?_, ?_, ?_, ?_, ?_, ?_⟩
  · simp [Heap.withArrays, hlog, hlen, hLB, hUB]
  · simp [Heap.withArrays, hlen]
  · rw [← hlive₀]
    exact isLive_appended_old h₁ _ _ (by omega)
  · rw [← hlive₁]
    exact isLive_appended_old h₁ _ _ (by omega)
  · rw [← hlive₀]
    exact isLive_appended_old h₁ _ _ (by omega)
  · rw [← hlive₁]
    exact isLive_appended_old h₁ _ _ (by omega)
  · rw [← hlen]
    exact isLive_appended_lower h₁ _ _ _ _
  · rw [show h.blocks.length + 3 = h₁.blocks.length + 1 by omega]
    exact isLive_appended_upper h₁ _ _ _ _

/-- Instance of C9: `setup(1, ..)` then `setup(2, ..)` on the same store. -/
theorem setup_twice_leaks_witness :
    ∃ h₂ o₂ h₃,
      RMTS.setup heapB { nx := some int1, lower := .addr 2 0, upper := .addr 3 0 } int2
        (.addr 0 0) (.addr 1 0) = .ok (h₂, o₂) ∧ RMTS.dtor h₂ o₂ = .ok h₃ ∧
      (Ptr.addr 2 0) = .addr heapA.blocks.length 0 ∧
      (Ptr.addr 3 0) = .addr (heapA.blocks.length + 1) 0 ∧
      o₂.lower = .addr (heapA.blocks.length + 2) 0 ∧
      o₂.upper = .addr (heapA.blocks.length + 3) 0 ∧
      h₂.log = heapA.log ++
        [.alloc heapA.blocks.length (int1.val.toNat * sizeofDouble),
         .alloc (heapA.blocks.length + 1) (int1.val.toNat * sizeofDouble),
         .alloc (heapA.blocks.length + 2) (int2.val.toNat * sizeofDouble),
         .alloc (heapA.blocks.length + 3) (int2.val.toNat * sizeofDouble)] ∧
      h₃.log = h₂.log ++ [.release (heapA.blocks.length + 2),
                          .release (heapA.blocks.length + 3)] ∧
      isLive h₂ heapA.blocks.length = true ∧ isLive h₂ (heapA.blocks.length + 1) = true ∧
      isLive h₃ heapA.blocks.length = true ∧ isLive h₃ (heapA.blocks.length + 1) = true ∧
      isLive h₃ (heapA.blocks.length + 2) = false ∧
      isLive h₃ (heapA.blocks.length + 3) = false :=
  setup_twice_leaks heapA heapB { nx := some int1, lower := .addr 2 0, upper := .addr 3 0 }
    int1 int2 (.addr 0 0) (.addr 1 0) (.addr 0 0) (.addr 1 0) [dbl1, dbl0] [dbl0, dbl1]
    rfl (show 0 < int2.val by decide) (show 2 = int2.val.toNat by decide)
    (show 2 = int2.val.toNat by decide)
    (fun i hi => match i, hi with
      | 0, _ => rfl
      | 1, _ => rfl
      | n + 2, hn => absurd hn (by simp))
    (fun i hi => match i, hi with
      | 0, _ => rfl
      | 1, _ => rfl
      | n + 2, hn => absurd hn (by simp))

/-- C10 (byte count). For every `int` value `0 ≤ nx ≤ 2^31 - 1` the count
`nx * sizeof(double)` computed in `size_t` does not wrap: it is `8 * nx`, a
whole number `nx` of elements, which is the length of the array that
`new double[nx]` has just allocated. -/
theorem memcpyCount_no_wrap (nx : Int) (h₀ : 0 ≤ nx) (h₁ : nx ≤ 2 ^ 31 - 1) :
    (memcpyCount nx : Int) = 8 * nx ∧
      memcpyCount nx % sizeofDouble = 0 ∧
      memcpyCount nx / sizeofDouble = nx.toNat ∧
      ∀ h : Heap, ∃ h' p, newArrayDouble h nx = .ok (h', p) ∧
        arrayLength h' p = some (memcpyCount nx / sizeofDouble) := by
  have h₂ : nx < 2 ^ 31 := by omega
  have hc := memcpyCount_of_nonneg nx h₀ h₂
  have hdiv : nx.toNat * sizeofDouble / sizeofDouble = nx.toNat :=
    Nat.mul_div_cancel _ (by decide)
  have hmod : nx.toNat * sizeofDouble % sizeofDouble = 0 := Nat.mul_mod_left _ _
  refine ⟨?_, ?_, ?_, ?_⟩
  · rw [hc]
    unfold sizeofDouble
    omega
  · rw [hc, hmod]
  · rw [hc, hdiv]
  · intro h
    refine ⟨_, _, newArrayDouble_of_nonneg h nx h₀ h₂, ?_⟩
    simp only [arrayLength, getElem?_length_append, List.length_replicate, hmod, hc, hdiv,
      and_self, if_true]

/-- Instance of C10 at the largest `int`. -/
theorem memcpyCount_no_wrap_witness :
    (memcpyCount 2147483647 : Int) = 8 * 2147483647 ∧
      memcpyCount 2147483647 % sizeofDouble = 0 ∧
      memcpyCount 2147483647 / sizeofDouble = (2147483647 : Int).toNat ∧
      ∀ h : Heap, ∃ h' p, newArrayDouble h 2147483647 = .ok (h', p) ∧
        arrayLength h' p = some (memcpyCount 2147483647 / sizeofDouble) :=
  memcpyCount_no_wrap 2147483647 (by decide) (by decide)

end Smt
